import Mathlib

/-!
Shallow embedding of the stock-market-scraper repository (src/scraper.py,
function fetch_and_store) and proofs about the claims of its specification.

Modelling conventions:
- Timestamps are natural numbers counting minutes; one day is 1440 minutes,
  so `index.normalize()` (midnight of the day of a timestamp) corresponds to
  the day number `t / 1440`. The fixed resample step RESAMPLE_INTERVAL =
  "5min" is the constant 5.
- Prices are rationals. Python floats are modelled as exact rationals;
  `round(x, 2)` is modelled as rounding to two decimals with ties to even,
  the rounding rule of Python round.
- A pandas DataFrame of candles indexed by timestamp is a list of candles;
  the index of the frames produced by yfinance is strictly increasing, which
  theorems carry as an explicit List.Pairwise hypothesis where they need it.
- Exceptions: the per-symbol body of the batch loop in scraper.py is wrapped
  in try/except-continue and the chunk body in a second try/except, under a
  top-level try/finally. Which library call raises is runtime behaviour
  outside the embedded data path, so raise points are injected by oracles: a
  per-symbol `Fault` (an exception before the snapshot is appended, or one
  in the later history-chart section), and a per-chunk `ChunkFate`
  (completed, exception caught by the chunk except after n symbols, or a
  top-level exit such as KeyboardInterrupt after n symbols).
- Network and database effects (Supabase reads/writes, yfinance download,
  file writes) are outside the embedding; their data is passed as inputs
  (metadata rows, a raw-candle table) and the persistence step is the pure
  projection of the accumulated caches to the written artifacts.
-/

namespace Scraper

set_option maxRecDepth 400000

/-- One raw 5-minute candle as returned by yfinance: the row of the frame at
one timestamp. Close may be missing (NaN), which dropna removes. -/
structure RawCandle where
  ts : Nat
  openPrice : ℚ
  close : Option ℚ
deriving DecidableEq

/-- A candle after `stock_df.dropna(subset=[Close])`: the close is present. -/
structure Candle where
  ts : Nat
  openPrice : ℚ
  close : ℚ
deriving DecidableEq

/-- Model of `stock_df.dropna(subset=[Close])`. -/
def dropnaClose (rs : List RawCandle) : List Candle :=
  rs.filterMap (fun r => r.close.map (fun c => { ts := r.ts, openPrice := r.openPrice, close := c }))

/-- Model of `index.normalize()`: the day number of a minute timestamp. -/
def dayOf (t : Nat) : Nat := t / 1440

/-- The 5-minute grid point at or below a timestamp; resample bins are
anchored at midnight and 1440 is a multiple of 5, so flooring to a multiple
of 5 minutes is the bin label of pandas resample("5min"). -/
def gridFloor (t : Nat) : Nat := t / 5 * 5

/-- Floor of a rational as an integer, executable. -/
def ratFloor (q : ℚ) : ℤ := Int.fdiv q.num (q.den : ℤ)

/-- Rounding of a rational to the nearest integer with ties to even, the
rule of Python round(). -/
def roundHalfEven (q : ℚ) : ℤ :=
  let f : ℤ := ratFloor q
  let r : ℚ := q - (f : ℚ)
  if r < 1/2 then f
  else if 1/2 < r then f + 1
  else if f % 2 = 0 then f else f + 1

/-- Model of Python round(x, 2). -/
def round2 (q : ℚ) : ℚ := ((roundHalfEven (q * 100) : ℤ) : ℚ) / 100

/-- Does the pattern match at the head of the haystack (Python str prefix test,
used to express the substring operator). -/
def leadMatch : List Char → List Char → Bool
  | [], _ => true
  | _ :: _, [] => false
  | p :: ps, h :: hs => p == h && leadMatch ps hs

/-- Does the pattern occur contiguously anywhere in the haystack. -/
def subMatch (pat : List Char) : List Char → Bool
  | [] => leadMatch pat []
  | h :: hs => leadMatch pat (h :: hs) || subMatch pat hs

/-- Model of the Python expression `pat in s` on strings. -/
def strIn (pat s : String) : Bool := subMatch pat.toList s.toList

/-- A row of the stock_profiles metadata after the defaults applied while
reading the catalog: company_name defaults to the symbol, market to "US". -/
structure StockRow where
  symbol : String
  company_name : String
  market : String
deriving DecidableEq

/-- Model of Python dict assignment d[k] = v on an insertion-ordered
association list: overwrite in place if the key exists, else append. -/
def dictInsert {α : Type} : List (String × α) → String → α → List (String × α)
  | [], k, v => [(k, v)]
  | (k0, v0) :: rest, k, v =>
      if k0 = k then (k0, v) :: rest else (k0, v0) :: dictInsert rest k v

/-- Model of Python dict lookup d.get(k). -/
def dictGet {α : Type} (l : List (String × α)) (k : String) : Option α :=
  (l.find? (fun p => p.1 == k)).map (fun p => p.2)

/-- Model of `metadata_map.get(symbol, {}).get("market", "US")`; the
metadata argument is the metadata_map dict keyed by symbol. -/
def catalogMarket (metadata : List (String × StockRow)) (symbol : String) : String :=
  match dictGet metadata symbol with
  | some r => r.market
  | none => "US"

/-- Model of `meta.get("company_name", symbol)`. -/
def catalogCompany (metadata : List (String × StockRow)) (symbol : String) : String :=
  match dictGet metadata symbol with
  | some r => r.company_name
  | none => symbol

/-- Crypto auto-detection of scraper.py: a symbol whose market tag resolved
to "US" is re-tagged "CRYPTO" when its name contains -USD, BTC or ETH. -/
def marketTypeOf (symbol m0 : String) : String :=
  if m0 = "US" ∧ (strIn "-USD" symbol || strIn "BTC" symbol || strIn "ETH" symbol) = true
  then "CRYPTO" else m0

/-- Model of `change_pct = change_value / prev_close * 100 if prev_close != 0
else 0.0`, taking the change value and the reference price. -/
def changePctOf (cv pc : ℚ) : ℚ := if pc ≠ 0 then cv / pc * 100 else 0

/-- Last element of a nonempty list given as head and tail, model of
`iloc[-1]`. -/
def lastOf {α : Type} (x : α) (l : List α) : α := (x :: l).getLast (List.cons_ne_nil x l)

/-- Model of the reference-price lookup: the close of the last row of
`stock_df[stock_df.index.normalize() < current_time.normalize()]` when that
frame is nonempty, else the open of the first row of stock_df. -/
def prevCloseOf (df : List Candle) (firstC lastC : Candle) : ℚ :=
  match (df.filter (fun c => dayOf c.ts < dayOf lastC.ts)).getLast? with
  | some c => c.close
  | none => firstC.openPrice

/-- The record appended to payload and latest_prices_cache for one symbol. -/
structure Snapshot where
  symbol : String
  company_name : String
  market : String
  price : ℚ
  change_percent : ℚ
  change_value : ℚ
  recorded_at : Nat
  previous_close : ℚ
deriving DecidableEq

/-- Builds the data_point dict of scraper.py: price, change fields and the
previous close are rounded to 2 decimals here, at output time. -/
def mkSnapshot (symbol company market : String) (cp pc cv cpct : ℚ) (t : Nat) : Snapshot :=
  { symbol := symbol, company_name := company, market := market,
    price := round2 cp, change_percent := round2 cpct, change_value := round2 cv,
    recorded_at := t, previous_close := round2 pc }

/-- The value stored in history_cache for one symbol: the start timestamp s
and the price list p with none for gaps. -/
structure HistoryEntry where
  s : Nat
  p : List (Option ℚ)
deriving DecidableEq

/-- The close of the candle sitting exactly on a grid timestamp, if any;
the value a resample(...).asfreq() cell takes at that bin label. -/
def lookupClose (l : List Candle) (g : Nat) : Option ℚ :=
  (l.find? (fun c => c.ts == g)).map Candle.close

/-- Model of `todays_data.resample("5min").asfreq()` applied to the candles
of the session day: the 5-minute grid from the bin of the first row to the
bin of the last row, each slot holding the close of the row lying exactly on
it, if any. No filling is applied. -/
def asfreq5 (l : List Candle) : List (Nat × Option ℚ) :=
  match l.head?, l.getLast? with
  | some a, some b =>
      let s := gridFloor a.ts
      let e := gridFloor b.ts
      (List.range ((e - s) / 5 + 1)).map (fun i => (s + 5 * i, lookupClose l (s + 5 * i)))
  | _, _ => []

/-- Model of `stock_df[stock_df.index.normalize() == last_ts.normalize()]`,
the candles of the session day of the last raw timestamp. -/
def todaysOf (df : List Candle) (lastC : Candle) : List Candle :=
  df.filter (fun c => dayOf c.ts == dayOf lastC.ts)

/-- The history-chart section of the per-symbol body: filter to the session
day, resample onto the 5-minute grid, and format the entry, with prices
rounded to 2 decimals and none kept for gaps. Returns none when the
resampled frame is empty, in which case no history entry is stored. -/
def historyOf (df : List Candle) (lastC : Candle) : Option HistoryEntry :=
  let series := asfreq5 (todaysOf df lastC)
  match series.head? with
  | none => none
  | some h => some { s := h.1, p := series.map (fun q => q.2.map round2) }

/-- Oracle for an exception raised inside the per-symbol try body:
snapPhase is a raise anywhere before the appends of the data point (lines
86-128 of scraper.py), histPhase a raise in the history-chart section after
the appends (lines 137-157). Both are caught by the inner except. -/
inductive Fault
  | snapPhase
  | histPhase
deriving DecidableEq

/-- The per-symbol body of the batch loop of fetch_and_store. Input raw is
none when the symbol is absent from the downloaded columns (the `continue`
at line 90); the empty and dropna-empty checks mirror lines 93-95. Returns
the snapshot appended to payload / latest_prices_cache and the entry stored
into history_cache, none where the code skips or an exception was caught. -/
def processSymbol (metadata : List (String × StockRow)) (symbol : String)
    (raw : Option (List RawCandle)) (fault : Option Fault) :
    Option Snapshot × Option HistoryEntry :=
  match raw with
  | none => (none, none)
  | some rs =>
    if rs.isEmpty then (none, none) else
    match dropnaClose rs with
    | [] => (none, none)
    | firstC :: rest =>
      if fault = some Fault.snapPhase then (none, none) else
      let df := firstC :: rest
      let lastC := lastOf firstC rest
      let cp := lastC.close
      let pc := prevCloseOf df firstC lastC
      let dp := mkSnapshot symbol (catalogCompany metadata symbol)
        (marketTypeOf symbol (catalogMarket metadata symbol))
        cp pc (cp - pc) (changePctOf (cp - pc) pc) lastC.ts
      if fault = some Fault.histPhase then (some dp, none)
      else (some dp, historyOf df lastC)

/-- The two append-only accumulators of fetch_and_store:
latest_prices_cache and history_cache. -/
structure RunState where
  latest : List Snapshot
  history : List (String × HistoryEntry)
deriving DecidableEq

/-- One iteration of the `for symbol in batch` loop acting on the
accumulators. -/
def stepSym (metadata : List (String × StockRow)) (raw : String → Option (List RawCandle))
    (faults : String → Option Fault) (st : RunState) (symbol : String) : RunState :=
  let r := processSymbol metadata symbol (raw symbol) (faults symbol)
  { latest := st.latest ++ r.1.toList,
    history := match r.2 with
      | none => st.history
      | some e => dictInsert st.history symbol e }

/-- The whole per-chunk symbol loop. -/
def processChunk (metadata : List (String × StockRow)) (raw : String → Option (List RawCandle))
    (faults : String → Option Fault) (batch : List String) (st : RunState) : RunState :=
  batch.foldl (stepSym metadata raw faults) st

/-- The shard bucket name of a symbol: history_ followed by the uppercased
first character when that character is alphabetic, else the fixed bucket
history_0-9. The empty-string case is unreachable for the symbols the run
stores (Python symbol[0] raises IndexError there); it is given the catch-all
bucket as a junk value. Char.toUpper and Char.isAlpha model the Python
str.upper and str.isalpha on the ASCII tickers this repository handles. -/
def shardName (symbol : String) : String :=
  match symbol.toList with
  | [] => "history_0-9"
  | c :: _ =>
      let u := c.toUpper
      if u.isAlpha then "history_" ++ String.mk [u] else "history_0-9"

/-- Model of the two statements `if shard_name not in shards: shards[...] = {}`
and `shards[shard_name][symbol] = data`: add one history pair to its bucket,
creating the bucket at the end when absent. -/
def bucketAdd : List (String × List (String × HistoryEntry)) → String →
    String × HistoryEntry → List (String × List (String × HistoryEntry))
  | [], name, p => [(name, [p])]
  | (n, b) :: rest, name, p =>
      if n = name then (n, dictInsert b p.1 p.2) :: rest
      else (n, b) :: bucketAdd rest name p

/-- The sharding loop of the finally block: partition history_cache into
named buckets. -/
def shardAll (hist : List (String × HistoryEntry)) :
    List (String × List (String × HistoryEntry)) :=
  hist.foldl (fun sh p => bucketAdd sh (shardName p.1) p) []

/-- The artifacts written by the finally block: latest_prices.json and one
file per shard. -/
structure Persisted where
  latestFile : List Snapshot
  shardFiles : List (String × List (String × HistoryEntry))
deriving DecidableEq

/-- The finally block as a pure projection of the accumulators: it always
writes the full latest-prices list and the shards of the accumulated
history cache. -/
def persist (st : RunState) : Persisted :=
  { latestFile := st.latest, shardFiles := shardAll st.history }

/-- Accumulators at the start of the run. -/
def initState : RunState := { latest := [], history := [] }

/-- Oracle for how one chunk iteration ends: ok means the body ran to the
end; caughtAfter n an exception raised after n symbols were processed and
caught by the per-chunk except (the loop continues); fatalAfter n an
exception or interrupt after n symbols that escapes to the outer
try/except/finally (the loop stops). -/
inductive ChunkFate
  | ok
  | caughtAfter (n : Nat)
  | fatalAfter (n : Nat)
deriving DecidableEq

/-- Does a fate end the chunk loop. -/
def fatalOf : ChunkFate → Bool
  | ChunkFate.fatalAfter _ => true
  | _ => false

/-- The chunk loop of fetch_and_store: sequentially folds the chunks into
the accumulators, stopping early at a fatal fate with the state reached at
that point. -/
def runLoop (metadata : List (String × StockRow)) (raw : String → Option (List RawCandle))
    (faults : String → Option Fault) (fate : Nat → ChunkFate) :
    List (List String) → Nat → RunState → RunState
  | [], _, st => st
  | b :: bs, i, st =>
      match fate i with
      | ChunkFate.ok => runLoop metadata raw faults fate bs (i + 1) (processChunk metadata raw faults b st)
      | ChunkFate.caughtAfter n =>
          runLoop metadata raw faults fate bs (i + 1) (processChunk metadata raw faults (b.take n) st)
      | ChunkFate.fatalAfter n => processChunk metadata raw faults (b.take n) st

/-- The run: the chunk loop inside try, then the finally block projecting
whatever the accumulators hold on the way out. -/
def fetchAndStore (metadata : List (String × StockRow)) (raw : String → Option (List RawCandle))
    (faults : String → Option Fault) (fate : Nat → ChunkFate)
    (batches : List (List String)) : Persisted :=
  persist (runLoop metadata raw faults fate batches 0 initState)

/-- The state the accumulators reach after a run of the given chunks with no
fatal fate among them: ok chunks contribute whole, caught chunks their
processed prefix. Fatal fates in the list are ignored (theorems use this
only on the non-fatal prefix of a run). -/
def accumChunks (metadata : List (String × StockRow)) (raw : String → Option (List RawCandle))
    (faults : String → Option Fault) (fate : Nat → ChunkFate) :
    List (List String) → Nat → RunState → RunState
  | [], _, st => st
  | b :: bs, i, st =>
      match fate i with
      | ChunkFate.ok => accumChunks metadata raw faults fate bs (i + 1) (processChunk metadata raw faults b st)
      | ChunkFate.caughtAfter n =>
          accumChunks metadata raw faults fate bs (i + 1) (processChunk metadata raw faults (b.take n) st)
      | ChunkFate.fatalAfter _ => accumChunks metadata raw faults fate bs (i + 1) st

/-- The snapshots recorded for one symbol in the latest-prices accumulator. -/
def latestFor (st : RunState) (t : String) : List Snapshot :=
  st.latest.filter (fun dp => dp.symbol == t)

/-- Modelled from the spec: the repository has no Market Calendar Resolver
or session-window table; the spec test scenario uses a 09:30 session open.
Used only to state what the first grid timestamp of the series would have to
be under the claim that it equals session_open. -/
def sessionOpenMinutes : Nat := 9 * 60 + 30

/-! ### Helper lemmas about the dict model -/

lemma dictGet_nil {α : Type} (k : String) : dictGet ([] : List (String × α)) k = none := rfl

lemma dictGet_cons {α : Type} (k0 : String) (v : α) (l : List (String × α)) (k : String) :
    dictGet ((k0, v) :: l) k = if k0 = k then some v else dictGet l k := by
  by_cases h : k0 = k <;> simp [dictGet, List.find?_cons, h]

lemma dictGet_dictInsert_self {α : Type} (l : List (String × α)) (k : String) (v : α) :
    dictGet (dictInsert l k v) k = some v := by
  induction l with
  | nil => simp [dictInsert, dictGet_cons]
  | cons p rest ih =>
      rcases p with ⟨k0, v0⟩
      by_cases h : k0 = k
      · simp [dictInsert, h, dictGet_cons]
      · simp [dictInsert, h, dictGet_cons, ih]

lemma dictGet_dictInsert_ne {α : Type} (l : List (String × α)) (k k' : String) (v : α)
    (h : k' ≠ k) : dictGet (dictInsert l k v) k' = dictGet l k' := by
  have h' : k ≠ k' := Ne.symm h
  induction l with
  | nil => simp [dictInsert, dictGet_cons, h']
  | cons p rest ih =>
      rcases p with ⟨k0, v0⟩
      by_cases h0 : k0 = k
      · subst h0
        simp [dictInsert, dictGet_cons, h']
      · simp [dictInsert, h0, dictGet_cons, ih]

lemma dictInsert_eq_append {α : Type} (l : List (String × α)) (k : String) (v : α)
    (h : ∀ q ∈ l, q.1 ≠ k) : dictInsert l k v = l ++ [(k, v)] := by
  induction l with
  | nil => simp [dictInsert]
  | cons p rest ih =>
      rcases p with ⟨k0, v0⟩
      have hk0 : k0 ≠ k := h (k0, v0) (by simp)
      simp [dictInsert, hk0]
      exact ih (fun q hq => h q (by simp [hq]))

/-! ### Helper lemmas about the per-symbol body -/

lemma dropnaClose_nil : dropnaClose [] = [] := rfl

lemma dropnaClose_ne_nil {rs : List RawCandle} {firstC : Candle} {rest : List Candle}
    (hdf : dropnaClose rs = firstC :: rest) : rs ≠ [] := by
  intro h
  subst h
  simp [dropnaClose] at hdf

/-- The snapshot produced for a symbol whose dropna-filtered candle list is
nonempty and whose body does not raise before the appends. -/
lemma processSymbol_fst_eq (metadata : List (String × StockRow)) (symbol : String)
    (rs : List RawCandle) (firstC : Candle) (rest : List Candle) (fault : Option Fault)
    (hdf : dropnaClose rs = firstC :: rest) (hfault : fault ≠ some Fault.snapPhase) :
    (processSymbol metadata symbol (some rs) fault).1
      = some (mkSnapshot symbol (catalogCompany metadata symbol)
          (marketTypeOf symbol (catalogMarket metadata symbol))
          (lastOf firstC rest).close
          (prevCloseOf (firstC :: rest) firstC (lastOf firstC rest))
          ((lastOf firstC rest).close - prevCloseOf (firstC :: rest) firstC (lastOf firstC rest))
          (changePctOf
            ((lastOf firstC rest).close - prevCloseOf (firstC :: rest) firstC (lastOf firstC rest))
            (prevCloseOf (firstC :: rest) firstC (lastOf firstC rest)))
          (lastOf firstC rest).ts) := by
  have hne : rs ≠ [] := dropnaClose_ne_nil hdf
  have hempty : rs.isEmpty = false := by simpa using hne
  by_cases hh : fault = some Fault.histPhase <;>
    simp [processSymbol, hempty, hdf, hfault, hh]

/-- The history entry produced for a symbol whose body does not raise. -/
lemma processSymbol_snd_eq (metadata : List (String × StockRow)) (symbol : String)
    (rs : List RawCandle) (firstC : Candle) (rest : List Candle)
    (hdf : dropnaClose rs = firstC :: rest) :
    (processSymbol metadata symbol (some rs) none).2
      = historyOf (firstC :: rest) (lastOf firstC rest) := by
  have hne : rs ≠ [] := dropnaClose_ne_nil hdf
  have hempty : rs.isEmpty = false := by simpa using hne
  simp [processSymbol, hempty, hdf]

/-- A produced snapshot always carries the symbol it was produced for. -/
lemma processSymbol_fst_symbol {metadata : List (String × StockRow)} {x : String}
    {raw : Option (List RawCandle)} {f : Option Fault} {dp : Snapshot}
    (h : (processSymbol metadata x raw f).1 = some dp) : dp.symbol = x := by
  cases raw with
  | none => simp [processSymbol] at h
  | some rs =>
    by_cases he : rs.isEmpty
    · simp [processSymbol, he] at h
    · rcases hdd : dropnaClose rs with _ | ⟨c, cs⟩
      · rw [processSymbol] at h
        simp [he, hdd] at h
      · by_cases hf1 : f = some Fault.snapPhase
        · rw [processSymbol] at h
          simp [he, hdd, hf1] at h
        · have h1 := processSymbol_fst_eq metadata x rs c cs f hdd hf1
          rw [h1] at h
          have : dp = mkSnapshot x (catalogCompany metadata x)
              (marketTypeOf x (catalogMarket metadata x))
              (lastOf c cs).close (prevCloseOf (c :: cs) c (lastOf c cs))
              ((lastOf c cs).close - prevCloseOf (c :: cs) c (lastOf c cs))
              (changePctOf ((lastOf c cs).close - prevCloseOf (c :: cs) c (lastOf c cs))
                (prevCloseOf (c :: cs) c (lastOf c cs)))
              (lastOf c cs).ts := by
            exact (Option.some.injEq _ _ ▸ h).symm
          rw [this, mkSnapshot]

/-- A symbol that is absent from the download, or empty, or empty after
dropna, contributes nothing, whatever the fault oracle says. -/
lemma processSymbol_skip {metadata : List (String × StockRow)} {x : String}
    {raw : Option (List RawCandle)} (f : Option Fault)
    (h : raw = none ∨ ∃ rs, raw = some rs ∧ dropnaClose rs = []) :
    processSymbol metadata x raw f = (none, none) := by
  rcases h with h | ⟨rs, hraw, hdd⟩
  · subst h
    rfl
  · subst hraw
    by_cases he : rs.isEmpty
    · simp [processSymbol, he]
    · rw [processSymbol]
      simp [he, hdd]

/-! ### Helper lemmas about the chunk loop -/

lemma stepSym_of_none {metadata : List (String × StockRow)}
    {raw : String → Option (List RawCandle)} {faults : String → Option Fault}
    {s : String} (st : RunState)
    (h : processSymbol metadata s (raw s) (faults s) = (none, none)) :
    stepSym metadata raw faults st s = st := by
  simp [stepSym, h]

/-- A step for a different symbol leaves the snapshots recorded for t as
they were, appending only entries carrying its own symbol. -/
lemma latestFor_stepSym {metadata : List (String × StockRow)}
    {raw : String → Option (List RawCandle)} {faults : String → Option Fault}
    (st : RunState) (x t : String) (hx : x ≠ t) :
    latestFor (stepSym metadata raw faults st x) t = latestFor st t := by
  rcases hr : (processSymbol metadata x (raw x) (faults x)) with ⟨o1, o2⟩
  cases o1 with
  | none => simp [stepSym, latestFor, hr, List.filter_append]
  | some dp =>
      have hsym : dp.symbol = x := processSymbol_fst_symbol (by rw [hr])
      have : (dp.symbol == t) = false := by simp [hsym, hx]
      simp [stepSym, latestFor, hr, List.filter_append, this]

/-- A step for a different symbol leaves the history entry of t unchanged. -/
lemma historyGet_stepSym {metadata : List (String × StockRow)}
    {raw : String → Option (List RawCandle)} {faults : String → Option Fault}
    (st : RunState) (x t : String) (hx : x ≠ t) :
    dictGet (stepSym metadata raw faults st x).history t = dictGet st.history t := by
  rcases hr : (processSymbol metadata x (raw x) (faults x)) with ⟨o1, o2⟩
  cases o2 with
  | none => simp [stepSym, hr]
  | some e => simp [stepSym, hr, dictGet_dictInsert_ne st.history x t e (Ne.symm hx)]

/-- Folding a batch that does not mention t leaves both accumulators
unchanged at t. -/
lemma processChunk_stable {metadata : List (String × StockRow)}
    {raw : String → Option (List RawCandle)} {faults : String → Option Fault} :
    ∀ (batch : List String) (st : RunState) (t : String), t ∉ batch →
      latestFor (processChunk metadata raw faults batch st) t = latestFor st t ∧
      dictGet (processChunk metadata raw faults batch st).history t = dictGet st.history t := by
  intro batch
  induction batch with
  | nil => intro st t _; exact ⟨rfl, rfl⟩
  | cons x xs ih =>
      intro st t ht
      have hx : x ≠ t := by
        intro h
        exact ht (by simp [h])
      have hxs : t ∉ xs := fun h => ht (by simp [h])
      have h1 := ih (stepSym metadata raw faults st x) t hxs
      refine ⟨?_, ?_⟩
      · calc latestFor (processChunk metadata raw faults (x :: xs) st) t
            = latestFor (processChunk metadata raw faults xs (stepSym metadata raw faults st x)) t := rfl
          _ = latestFor (stepSym metadata raw faults st x) t := h1.1
          _ = latestFor st t := latestFor_stepSym st x t hx
      · calc dictGet (processChunk metadata raw faults (x :: xs) st).history t
            = dictGet (processChunk metadata raw faults xs (stepSym metadata raw faults st x)).history t := rfl
          _ = dictGet (stepSym metadata raw faults st x).history t := h1.2
          _ = dictGet st.history t := historyGet_stepSym st x t hx

/-- If a symbol contributes nothing, folding the batch equals folding the
batch with that symbol filtered out. -/
lemma processChunk_filter_of_skip {metadata : List (String × StockRow)}
    {raw : String → Option (List RawCandle)} {faults : String → Option Fault} {s : String}
    (h : processSymbol metadata s (raw s) (faults s) = (none, none)) :
    ∀ (batch : List String) (st : RunState),
      processChunk metadata raw faults batch st
        = processChunk metadata raw faults (batch.filter (fun t => !(t == s))) st := by
  intro batch
  induction batch with
  | nil => intro st; rfl
  | cons x xs ih =>
      intro st
      by_cases hx : x = s
      · subst hx
        have : stepSym metadata raw faults st x = st := stepSym_of_none st h
        simp [processChunk, List.filter_cons, List.foldl_cons, this] at ih ⊢
        exact ih st
      · have hb : (x == s) = false := by simp [hx]
        simp [processChunk, List.filter_cons, hb, List.foldl_cons] at ih ⊢
        exact ih (stepSym metadata raw faults st x)

/-- Two runs of one chunk whose fault oracles agree outside the symbol s
agree, at every other symbol, on the snapshots recorded and on the history
entry. The contribution of every symbol is independent of the fate of s. -/
lemma processChunk_agree {metadata : List (String × StockRow)}
    {raw : String → Option (List RawCandle)} {faults faults2 : String → Option Fault}
    {s : String} (hag : ∀ t, t ≠ s → faults2 t = faults t) :
    ∀ (batch : List String) (st1 st2 : RunState),
      (∀ t, t ≠ s → latestFor st1 t = latestFor st2 t) →
      (∀ t, t ≠ s → dictGet st1.history t = dictGet st2.history t) →
      ∀ t, t ≠ s →
        latestFor (processChunk metadata raw faults batch st1) t
          = latestFor (processChunk metadata raw faults2 batch st2) t ∧
        dictGet (processChunk metadata raw faults batch st1).history t
          = dictGet (processChunk metadata raw faults2 batch st2).history t := by
  intro batch
  induction batch with
  | nil => intro st1 st2 hl hh t ht; exact ⟨hl t ht, hh t ht⟩
  | cons x xs ih =>
      intro st1 st2 hl hh t ht
      refine ih (stepSym metadata raw faults st1 x) (stepSym metadata raw faults2 st2 x) ?_ ?_ t ht
      · intro u hu
        by_cases hxu : x = u
        · subst hxu
          have hfx : faults2 x = faults x := hag x hu
          rcases hr : (processSymbol metadata x (raw x) (faults x)) with ⟨o1, o2⟩
          have hx' := hl x hu
          simp only [latestFor] at hx'
          simp [stepSym, latestFor, hfx, hr, List.filter_append, hx']
        · rw [latestFor_stepSym st1 x u hxu, latestFor_stepSym st2 x u hxu]
          exact hl u hu
      · intro u hu
        by_cases hxu : x = u
        · subst hxu
          have hfx : faults2 x = faults x := hag x hu
          rcases hr : (processSymbol metadata x (raw x) (faults x)) with ⟨o1, o2⟩
          cases o2 with
          | none => simpa [stepSym, hfx, hr] using hh x hu
          | some e => simp [stepSym, hfx, hr, dictGet_dictInsert_self]
        · rw [historyGet_stepSym st1 x u hxu, historyGet_stepSym st2 x u hxu]
          exact hh u hu

/-! ### Helper lemmas about the chunk loop and the finally block -/

/-- A run whose fates are all non-fatal folds every chunk into the
accumulators. -/
lemma runLoop_eq_accum (metadata : List (String × StockRow))
    (raw : String → Option (List RawCandle)) (faults : String → Option Fault)
    (fate : Nat → ChunkFate) :
    ∀ (bs : List (List String)) (i : Nat) (st : RunState),
      (∀ j, j < bs.length → fatalOf (fate (i + j)) = false) →
      runLoop metadata raw faults fate bs i st = accumChunks metadata raw faults fate bs i st := by
  intro bs
  induction bs with
  | nil => intro i st _; rfl
  | cons b rest ih =>
      intro i st hnf
      have h0 : fatalOf (fate i) = false := by simpa using hnf 0 (by simp)
      have hshift : ∀ j, j < rest.length → fatalOf (fate (i + 1 + j)) = false := by
        intro j hj
        have := hnf (j + 1) (by simpa using Nat.succ_lt_succ hj)
        simpa [Nat.add_assoc, Nat.add_comm 1 j] using this
      rcases hf : fate i with _ | n | n
      · simpa [runLoop, accumChunks, hf] using
          ih (i + 1) (processChunk metadata raw faults b st) hshift
      · simpa [runLoop, accumChunks, hf] using
          ih (i + 1) (processChunk metadata raw faults (b.take n) st) hshift
      · rw [hf] at h0
        simp [fatalOf] at h0

/-- A run whose first fatal fate comes at position k stops there with the
state accumulated from the prefix plus the partial chunk processed up to the
interrupt. -/
lemma runLoop_eq_crash (metadata : List (String × StockRow))
    (raw : String → Option (List RawCandle)) (faults : String → Option Fault)
    (fate : Nat → ChunkFate) :
    ∀ (bs : List (List String)) (i : Nat) (st : RunState) (k n : Nat),
      k < bs.length →
      (∀ j, j < k → fatalOf (fate (i + j)) = false) →
      fate (i + k) = ChunkFate.fatalAfter n →
      runLoop metadata raw faults fate bs i st
        = processChunk metadata raw faults ((bs.getD k []).take n)
            (accumChunks metadata raw faults fate (bs.take k) i st) := by
  intro bs
  induction bs with
  | nil => intro i st k n hk _ _; simp at hk
  | cons b rest ih =>
      intro i st k n hk hnf hfatal
      cases k with
      | zero =>
          have hf : fate i = ChunkFate.fatalAfter n := by simpa using hfatal
          simp [runLoop, accumChunks, hf, List.getD]
      | succ k' =>
          have h0 : fatalOf (fate i) = false := by simpa using hnf 0 (Nat.succ_pos k')
          have hk' : k' < rest.length := by simpa using Nat.lt_of_succ_lt_succ hk
          have hshift : ∀ j, j < k' → fatalOf (fate (i + 1 + j)) = false := by
            intro j hj
            have := hnf (j + 1) (Nat.succ_lt_succ hj)
            simpa [Nat.add_assoc, Nat.add_comm 1 j] using this
          have hfatal' : fate (i + 1 + k') = ChunkFate.fatalAfter n := by
            simpa [Nat.add_assoc, Nat.add_comm 1 k'] using hfatal
          rcases hf : fate i with _ | m | m
          · simpa [runLoop, accumChunks, hf, List.take_succ_cons, List.getD] using
              ih (i + 1) (processChunk metadata raw faults b st) k' n hk' hshift hfatal'
          · simpa [runLoop, accumChunks, hf, List.take_succ_cons, List.getD] using
              ih (i + 1) (processChunk metadata raw faults (b.take m) st) k' n hk' hshift hfatal'
          · rw [hf] at h0
            simp [fatalOf] at h0

/-! ### Helper lemmas about sharding -/

lemma bucketAdd_get_ne (sh : List (String × List (String × HistoryEntry)))
    (name b : String) (p : String × HistoryEntry) (h : b ≠ name) :
    dictGet (bucketAdd sh name p) b = dictGet sh b := by
  have h' : name ≠ b := Ne.symm h
  induction sh with
  | nil => simp [bucketAdd, dictGet_cons, h']
  | cons q rest ih =>
      rcases q with ⟨n, bk⟩
      by_cases hn : n = name
      · subst hn
        simp [bucketAdd, dictGet_cons, h']
      · simp [bucketAdd, hn, dictGet_cons, ih]

lemma bucketAdd_get_self (sh : List (String × List (String × HistoryEntry)))
    (name : String) (p : String × HistoryEntry)
    (hfresh : ∀ bk, dictGet sh name = some bk → ∀ q ∈ bk, q.1 ≠ p.1) :
    dictGet (bucketAdd sh name p) name = some (((dictGet sh name).getD []) ++ [p]) := by
  induction sh with
  | nil => simp [bucketAdd, dictGet_cons, dictGet_nil]
  | cons q rest ih =>
      rcases q with ⟨n, bk⟩
      by_cases hn : n = name
      · subst hn
        have hbk : ∀ q ∈ bk, q.1 ≠ p.1 := hfresh bk (by simp [dictGet_cons])
        simp [bucketAdd, dictGet_cons, dictInsert_eq_append bk p.1 p.2 hbk]
      · have hrest : ∀ bk2, dictGet rest name = some bk2 → ∀ q ∈ bk2, q.1 ≠ p.1 := by
          intro bk2 hb2
          exact hfresh bk2 (by simp [dictGet_cons, hn, hb2])
        simp [bucketAdd, hn, dictGet_cons, ih hrest]

/-- Characterization of the sharding fold: with distinct symbols and an
accumulator free of them, the bucket for b ends up holding exactly the
history pairs whose shard name is b, in order, appended to what the
accumulator already had. -/
lemma shardFold_get :
    ∀ (hist : List (String × HistoryEntry))
      (acc : List (String × List (String × HistoryEntry))) (b : String),
      (hist.map Prod.fst).Nodup →
      (∀ p ∈ hist, ∀ n bk, dictGet acc n = some bk → ∀ q ∈ bk, q.1 ≠ p.1) →
      dictGet (hist.foldl (fun sh p => bucketAdd sh (shardName p.1) p) acc) b
        = match dictGet acc b with
          | some bk => some (bk ++ hist.filter (fun p => shardName p.1 == b))
          | none =>
              if (hist.filter (fun p => shardName p.1 == b)).isEmpty then none
              else some (hist.filter (fun p => shardName p.1 == b)) := by
  intro hist
  induction hist with
  | nil =>
      intro acc b _ _
      cases h : dictGet acc b <;> simp [h]
  | cons p rest ih =>
      intro acc b hnd hfresh
      have hnd2 : p.1 ∉ rest.map Prod.fst ∧ (rest.map Prod.fst).Nodup := by
        rw [List.map_cons] at hnd
        exact List.nodup_cons.mp hnd
      have hnd' : (rest.map Prod.fst).Nodup := hnd2.2
      have hp1 : p.1 ∉ rest.map Prod.fst := hnd2.1
      have hfreshp : ∀ bk, dictGet acc (shardName p.1) = some bk → ∀ q ∈ bk, q.1 ≠ p.1 :=
        fun bk hbk => hfresh p (by simp) (shardName p.1) bk hbk
      have hacc' : ∀ q ∈ rest, ∀ n bk, dictGet (bucketAdd acc (shardName p.1) p) n = some bk →
          ∀ r ∈ bk, r.1 ≠ q.1 := by
        intro q hq n bk hbk r hr
        by_cases hn : n = shardName p.1
        · subst hn
          rw [bucketAdd_get_self acc _ p hfreshp] at hbk
          have hbk' : bk = ((dictGet acc (shardName p.1)).getD []) ++ [p] :=
            (Option.some.injEq _ _ ▸ hbk).symm
          subst hbk'
          rcases List.mem_append.mp hr with hold | hnew
          · cases hg : dictGet acc (shardName p.1) with
            | none => rw [hg] at hold; simp at hold
            | some bk0 =>
                rw [hg] at hold
                exact hfresh q (by simp [hq]) (shardName p.1) bk0 hg r hold
          · have : r = p := by simpa using hnew
            subst this
            intro hcontra
            exact hp1 (by
              rw [hcontra]
              exact List.mem_map_of_mem Prod.fst hq)
        · rw [bucketAdd_get_ne acc (shardName p.1) n p hn] at hbk
          exact hfresh q (by simp [hq]) n bk hbk r hr
      have hih := ih (bucketAdd acc (shardName p.1) p) b hnd' hacc'
      rw [List.foldl_cons]
      by_cases hb : b = shardName p.1
      · subst hb
        rw [hih, bucketAdd_get_self acc _ p hfreshp]
        have hcond : (shardName p.1 == shardName p.1) = true := by simp
        cases hg : dictGet acc (shardName p.1) with
        | none => simp [hg, List.filter_cons, hcond]
        | some bk0 => simp [hg, List.filter_cons, hcond]
      · rw [hih, bucketAdd_get_ne acc (shardName p.1) b p hb]
        have hcond : (shardName p.1 == b) = false := by
          simp only [beq_eq_false_iff_ne, ne_eq]
          exact fun hh => hb hh.symm
        have hfc : List.filter (fun q => shardName q.1 == b) (p :: rest)
            = List.filter (fun q => shardName q.1 == b) rest := by
          rw [List.filter_cons]
          simp [hcond]
        cases hg : dictGet acc b with
        | none =>
            simp only [hg]
            rw [hfc]
        | some bk0 => simp [hg, hfc]

/-- The bucket of shardAll at name b holds exactly the history pairs whose
shard name is b. -/
lemma shardAll_get (hist : List (String × HistoryEntry)) (b : String)
    (hnd : (hist.map Prod.fst).Nodup) :
    dictGet (shardAll hist) b
      = if (hist.filter (fun p => shardName p.1 == b)).isEmpty then none
        else some (hist.filter (fun p => shardName p.1 == b)) := by
  have h := shardFold_get hist [] b hnd (by intro p _ n bk hbk; simp [dictGet_nil] at hbk)
  simpa [shardAll, dictGet_nil] using h

/-! ### Helper lemmas about the resampled series -/

/-- Unfolding of asfreq5 on a nonempty list. -/
lemma asfreq5_eq_of_head (l : List Candle) (a b : Candle)
    (ha : l.head? = some a) (hb : l.getLast? = some b) :
    asfreq5 l = (List.range ((gridFloor b.ts - gridFloor a.ts) / 5 + 1)).map
      (fun i => (gridFloor a.ts + 5 * i, lookupClose l (gridFloor a.ts + 5 * i))) := by
  rw [asfreq5, ha, hb]

/-- Every element of the resampled series sits at the grid point determined
by its position: start plus five minutes per step. -/
lemma asfreq5_getElem {l : List Candle} {a : Candle} (ha : l.head? = some a)
    {i : Nat} {g : Nat} {v : Option ℚ} (h : (asfreq5 l)[i]? = some (g, v)) :
    g = gridFloor a.ts + 5 * i ∧ v = lookupClose l g := by
  have hne : l ≠ [] := by
    intro hl
    rw [hl] at ha
    simp at ha
  obtain ⟨b, hb⟩ : ∃ b, l.getLast? = some b := by
    cases hgl : l.getLast? with
    | none => exact absurd (List.getLast?_eq_none_iff.mp hgl) hne
    | some b => exact ⟨b, rfl⟩
  rw [asfreq5_eq_of_head l a b ha hb] at h
  rw [List.getElem?_map] at h
  cases hi : (List.range ((gridFloor b.ts - gridFloor a.ts) / 5 + 1))[i]? with
  | none => rw [hi] at h; simp at h
  | some j =>
      have hlt : i < (gridFloor b.ts - gridFloor a.ts) / 5 + 1 := by
        by_contra hge
        rw [List.getElem?_eq_none (by simpa using Nat.le_of_not_lt hge)] at hi
        simp at hi
      have hj : j = i := by
        rw [List.getElem?_range hlt] at hi
        exact (Option.some.injEq _ _ ▸ hi).symm
      rw [hi, hj] at h
      simp only [Option.map_some'] at h
      have heq := (Option.some.injEq _ _ ▸ h)
      have hg : g = gridFloor a.ts + 5 * i := (congrArg Prod.fst heq).symm
      have hv : v = lookupClose l (gridFloor a.ts + 5 * i) := (congrArg Prod.snd heq).symm
      rw [hg]
      exact ⟨rfl, hv⟩

/-- The resampled series of a nonempty list starts at the grid floor of the
first row. -/
lemma asfreq5_head {l : List Candle} {a : Candle} (ha : l.head? = some a) :
    (asfreq5 l).head? = some (gridFloor a.ts, lookupClose l (gridFloor a.ts)) := by
  have hne : l ≠ [] := by
    intro hl
    rw [hl] at ha
    simp at ha
  obtain ⟨b, hb⟩ : ∃ b, l.getLast? = some b := by
    cases hgl : l.getLast? with
    | none => exact absurd (List.getLast?_eq_none_iff.mp hgl) hne
    | some b => exact ⟨b, rfl⟩
  rw [asfreq5_eq_of_head l a b ha hb, List.head?_map, List.range_succ_eq_map]
  simp

/-- A series slot holds a value exactly when a candle sits on its grid
point. -/
lemma lookupClose_isSome_iff (l : List Candle) (g : Nat) :
    (lookupClose l g).isSome = true ↔ ∃ c ∈ l, c.ts = g := by
  simp [lookupClose, List.find?_isSome]

/-! ### Helper lemmas about exception phases and the history entry -/

lemma processSymbol_snapPhase (metadata : List (String × StockRow)) (x : String)
    (raw : Option (List RawCandle)) :
    processSymbol metadata x raw (some Fault.snapPhase) = (none, none) := by
  cases raw with
  | none => rfl
  | some rs =>
      by_cases he : rs.isEmpty
      · simp [processSymbol, he]
      · rcases hdd : dropnaClose rs with _ | ⟨c, cs⟩ <;>
          · rw [processSymbol]
            simp [he, hdd]

lemma processSymbol_histPhase_snd (metadata : List (String × StockRow)) (x : String)
    (raw : Option (List RawCandle)) :
    (processSymbol metadata x raw (some Fault.histPhase)).2 = none := by
  cases raw with
  | none => rfl
  | some rs =>
      by_cases he : rs.isEmpty
      · simp [processSymbol, he]
      · rcases hdd : dropnaClose rs with _ | ⟨c, cs⟩ <;>
          · rw [processSymbol]
            simp [he, hdd]

lemma processSymbol_histPhase_fst (metadata : List (String × StockRow)) (x : String)
    (raw : Option (List RawCandle)) :
    (processSymbol metadata x raw (some Fault.histPhase)).1
      = (processSymbol metadata x raw none).1 := by
  cases raw with
  | none => rfl
  | some rs =>
      by_cases he : rs.isEmpty
      · simp [processSymbol, he]
      · rcases hdd : dropnaClose rs with _ | ⟨c, cs⟩
        · rw [processSymbol, processSymbol]
          simp [he, hdd]
        · rw [processSymbol_fst_eq metadata x rs c cs (some Fault.histPhase) hdd (by simp),
            processSymbol_fst_eq metadata x rs c cs none hdd (by simp)]

lemma round2_zero : round2 0 = 0 := by
  with_unfolding_all decide

lemma asfreq5_nil : asfreq5 [] = [] := rfl

lemma historyOf_eq_some {df : List Candle} {lastC : Candle} {e : HistoryEntry}
    (he : historyOf df lastC = some e) :
    ∃ h0, (asfreq5 (todaysOf df lastC)).head? = some h0 ∧
      e = ⟨h0.1, (asfreq5 (todaysOf df lastC)).map (fun q => q.2.map round2)⟩ := by
  rw [historyOf] at he
  cases hh : (asfreq5 (todaysOf df lastC)).head? with
  | none => rw [hh] at he; simp at he
  | some h0 =>
      rw [hh] at he
      refine ⟨h0, rfl, ?_⟩
      simpa using he.symm

/-! ### Helper lemmas about the substring test -/

lemma leadMatch_iff : ∀ (p h : List Char), leadMatch p h = true ↔ ∃ suf, h = p ++ suf := by
  intro p
  induction p with
  | nil => intro h; simp [leadMatch]
  | cons a ps ih =>
      intro h
      cases h with
      | nil => simp [leadMatch]
      | cons b hs =>
          rw [leadMatch]
          constructor
          · intro hm
            rw [Bool.and_eq_true] at hm
            obtain ⟨hab, hrest⟩ := hm
            obtain ⟨suf, hsuf⟩ := (ih hs).mp hrest
            exact ⟨suf, by simp [(beq_iff_eq.mp hab).symm, hsuf]⟩
          · rintro ⟨suf, hsuf⟩
            have h1 : b = a ∧ hs = ps ++ suf := by simpa using hsuf
            rw [Bool.and_eq_true]
            exact ⟨beq_iff_eq.mpr h1.1.symm, (ih hs).mpr ⟨suf, h1.2⟩⟩

lemma subMatch_iff (p : List Char) : ∀ (h : List Char),
    subMatch p h = true ↔ ∃ pre suf, h = pre ++ p ++ suf := by
  intro h
  induction h with
  | nil =>
      rw [subMatch, leadMatch_iff]
      constructor
      · rintro ⟨suf, hsuf⟩
        exact ⟨[], suf, by simpa using hsuf⟩
      · rintro ⟨pre, suf, hsuf⟩
        have h1 : pre = [] ∧ p = [] ∧ suf = [] := by
          have := hsuf.symm
          simpa [List.append_eq_nil] using this
        exact ⟨[], by simp [h1.2.1]⟩
  | cons x hs ih =>
      rw [subMatch, Bool.or_eq_true, leadMatch_iff, ih]
      constructor
      · rintro (⟨suf, hsuf⟩ | ⟨pre, suf, hsuf⟩)
        · exact ⟨[], suf, by simpa using hsuf⟩
        · exact ⟨x :: pre, suf, by simp [hsuf]⟩
      · rintro ⟨pre, suf, hsuf⟩
        cases pre with
        | nil => exact Or.inl ⟨suf, by simpa using hsuf⟩
        | cons y pre' =>
            have h1 : x = y ∧ hs = pre' ++ p ++ suf := by simpa using hsuf
            exact Or.inr ⟨pre', suf, h1.2⟩

lemma strIn_iff (pat s : String) :
    strIn pat s = true ↔ ∃ pre suf, s.toList = pre ++ pat.toList ++ suf := by
  rw [strIn, subMatch_iff]

/-! ### Helper lemmas about sorted candle lists -/

/-- In a strictly increasing candle list, the head is the earliest row. -/
lemma pairwise_head_min {x : Candle} {xs : List Candle}
    (h : (x :: xs).Pairwise (fun a b => a.ts < b.ts)) :
    ∀ c ∈ x :: xs, x.ts ≤ c.ts := by
  intro c hc
  rcases List.mem_cons.mp hc with hcx | hcs
  · exact le_of_eq (by rw [hcx])
  · exact le_of_lt ((List.pairwise_cons.mp h).1 c hcs)

/-- Variant of the head-minimality statement phrased through head?. -/
lemma pairwise_head?_min (l : List Candle) (h : l.Pairwise (fun a b => a.ts < b.ts))
    (c0 : Candle) (hc0 : l.head? = some c0) : ∀ c ∈ l, c0.ts ≤ c.ts := by
  cases l with
  | nil => simp at hc0
  | cons x xs =>
      have hx : c0 = x := by simpa using hc0.symm
      subst hx
      exact pairwise_head_min h

/-- In a strictly increasing candle list, the last row is the latest. -/
lemma pairwise_getLast?_max :
    ∀ (l : List Candle), l.Pairwise (fun a b => a.ts < b.ts) →
      ∀ c : Candle, l.getLast? = some c → c ∈ l ∧ ∀ x ∈ l, x.ts ≤ c.ts := by
  intro l
  induction l with
  | nil => intro _ c hc; simp at hc
  | cons a t ih =>
      intro h c hc
      cases t with
      | nil =>
          have : c = a := by simpa using hc.symm
          subst this
          exact ⟨by simp, by intro x hx; simp at hx; simp [hx]⟩
      | cons b t' =>
          rw [List.getLast?_cons_cons] at hc
          have htail := (List.pairwise_cons.mp h).2
          have hstep := ih htail c hc
          refine ⟨List.mem_cons_of_mem a hstep.1, ?_⟩
          intro x hx
          rcases List.mem_cons.mp hx with hxa | hxt
          · subst hxa
            exact le_of_lt ((List.pairwise_cons.mp h).1 c hstep.1)
          · exact hstep.2 x hxt

/-! ### Claim theorems -/

/-- C3: for every symbol, the reference price (prev_close) is the close of
the last candle whose day is strictly before the session day (the day of
the last raw timestamp); when no candle precedes the session day it falls
back to the open of the first candle of the window. Candles are the raw
rows with a non-null close, and the frame index is strictly increasing. -/
theorem claim3_reference_price (metadata : List (String × StockRow)) (symbol : String)
    (rs : List RawCandle) (firstC : Candle) (rest : List Candle)
    (hdf : dropnaClose rs = firstC :: rest)
    (hsort : (firstC :: rest).Pairwise (fun a b => a.ts < b.ts)) :
    ∃ dp, (processSymbol metadata symbol (some rs) none).1 = some dp ∧
      dp.previous_close = round2 (prevCloseOf (firstC :: rest) firstC (lastOf firstC rest)) ∧
      ((∃ c ∈ firstC :: rest, dayOf c.ts < dayOf (lastOf firstC rest).ts) →
        ∃ c ∈ firstC :: rest, dayOf c.ts < dayOf (lastOf firstC rest).ts ∧
          (∀ c2 ∈ firstC :: rest, dayOf c2.ts < dayOf (lastOf firstC rest).ts → c2.ts ≤ c.ts) ∧
          prevCloseOf (firstC :: rest) firstC (lastOf firstC rest) = c.close) ∧
      ((¬ ∃ c ∈ firstC :: rest, dayOf c.ts < dayOf (lastOf firstC rest).ts) →
        prevCloseOf (firstC :: rest) firstC (lastOf firstC rest) = firstC.openPrice) ∧
      (∀ c ∈ firstC :: rest, firstC.ts ≤ c.ts) := by
  refine ⟨_, processSymbol_fst_eq metadata symbol rs firstC rest none hdf (by simp),
    rfl, ?_, ?_, pairwise_head_min hsort⟩
  · intro hex
    cases hPl : ((firstC :: rest).filter
        (fun c => dayOf c.ts < dayOf (lastOf firstC rest).ts)).getLast? with
    | none =>
        have hPnil := List.getLast?_eq_none_iff.mp hPl
        rw [List.filter_eq_nil_iff] at hPnil
        obtain ⟨c, hc, hlt⟩ := hex
        have hcon := hPnil c hc
        simp at hcon
        exact absurd hlt (not_lt.mpr hcon)
    | some c =>
        have hPsort : ((firstC :: rest).filter
            (fun c => dayOf c.ts < dayOf (lastOf firstC rest).ts)).Pairwise
              (fun a b => a.ts < b.ts) := hsort.filter _
        have hmax := pairwise_getLast?_max _ hPsort c hPl
        have hcdf := List.mem_filter.mp hmax.1
        refine ⟨c, hcdf.1, by simpa using hcdf.2, ?_, ?_⟩
        · intro c2 hc2 hlt2
          exact hmax.2 c2 (List.mem_filter.mpr ⟨hc2, by simpa using hlt2⟩)
        · simp only [prevCloseOf, hPl]
  · intro hnex
    have hPnil : (firstC :: rest).filter
        (fun c => dayOf c.ts < dayOf (lastOf firstC rest).ts) = [] := by
      rw [List.filter_eq_nil_iff]
      intro a ha
      simp only [decide_eq_true_eq]
      exact fun hlt => hnex ⟨a, ha, hlt⟩
    simp [prevCloseOf, hPnil]

/-- Witness for C3: two candles on consecutive days; the reference price is
the prior-day close 10. -/
theorem claim3_reference_price_witness :
    (dropnaClose [⟨0, 10, some 10⟩, ⟨1440, 11, some 20⟩]
      = [⟨0, 10, 10⟩, ⟨1440, 11, 20⟩]) ∧
    (([(⟨0, 10, 10⟩ : Candle), ⟨1440, 11, 20⟩]).Pairwise (fun a b => a.ts < b.ts)) ∧
    (∃ dp, (processSymbol [] "AAA" (some [⟨0, 10, some 10⟩, ⟨1440, 11, some 20⟩]) none).1 = some dp ∧
      dp.previous_close
        = round2 (prevCloseOf [⟨0, 10, 10⟩, ⟨1440, 11, 20⟩] ⟨0, 10, 10⟩
            (lastOf ⟨0, 10, 10⟩ [⟨1440, 11, 20⟩])) ∧
      ((∃ c ∈ [(⟨0, 10, 10⟩ : Candle), ⟨1440, 11, 20⟩],
          dayOf c.ts < dayOf (lastOf (⟨0, 10, 10⟩ : Candle) [⟨1440, 11, 20⟩]).ts) →
        ∃ c ∈ [(⟨0, 10, 10⟩ : Candle), ⟨1440, 11, 20⟩],
          dayOf c.ts < dayOf (lastOf (⟨0, 10, 10⟩ : Candle) [⟨1440, 11, 20⟩]).ts ∧
          (∀ c2 ∈ [(⟨0, 10, 10⟩ : Candle), ⟨1440, 11, 20⟩],
            dayOf c2.ts < dayOf (lastOf (⟨0, 10, 10⟩ : Candle) [⟨1440, 11, 20⟩]).ts →
              c2.ts ≤ c.ts) ∧
          prevCloseOf [⟨0, 10, 10⟩, ⟨1440, 11, 20⟩] ⟨0, 10, 10⟩
            (lastOf ⟨0, 10, 10⟩ [⟨1440, 11, 20⟩]) = c.close) ∧
      ((¬ ∃ c ∈ [(⟨0, 10, 10⟩ : Candle), ⟨1440, 11, 20⟩],
          dayOf c.ts < dayOf (lastOf (⟨0, 10, 10⟩ : Candle) [⟨1440, 11, 20⟩]).ts) →
        prevCloseOf [⟨0, 10, 10⟩, ⟨1440, 11, 20⟩] ⟨0, 10, 10⟩
          (lastOf ⟨0, 10, 10⟩ [⟨1440, 11, 20⟩]) = (⟨0, 10, 10⟩ : Candle).openPrice) ∧
      (∀ c ∈ [(⟨0, 10, 10⟩ : Candle), ⟨1440, 11, 20⟩], (⟨0, 10, 10⟩ : Candle).ts ≤ c.ts)) :=
  ⟨by with_unfolding_all decide, by decide,
    claim3_reference_price [] "AAA" [⟨0, 10, some 10⟩, ⟨1440, 11, some 20⟩]
      ⟨0, 10, 10⟩ [⟨1440, 11, 20⟩] (by with_unfolding_all decide) (by decide)⟩

/-- C7: with a zero reference price the percentage change is exactly zero
(the division is guarded, no exception), otherwise it is
(price - reference) / reference * 100. -/
theorem claim7_zero_guard (metadata : List (String × StockRow)) (symbol : String)
    (rs : List RawCandle) (firstC : Candle) (rest : List Candle) (cp pc : ℚ)
    (hdf : dropnaClose rs = firstC :: rest)
    (hcp : cp = (lastOf firstC rest).close)
    (hpc : pc = prevCloseOf (firstC :: rest) firstC (lastOf firstC rest)) :
    ∃ dp, (processSymbol metadata symbol (some rs) none).1 = some dp ∧
      (pc = 0 → changePctOf (cp - pc) pc = 0 ∧ dp.change_percent = 0) ∧
      (pc ≠ 0 → changePctOf (cp - pc) pc = (cp - pc) / pc * 100 ∧
        dp.change_percent = round2 ((cp - pc) / pc * 100)) := by
  subst hcp
  subst hpc
  refine ⟨_, processSymbol_fst_eq metadata symbol rs firstC rest none hdf (by simp), ?_, ?_⟩
  · intro h0
    refine ⟨by simp [changePctOf, h0], ?_⟩
    show round2 (changePctOf _ _) = 0
    simp [changePctOf, h0, round2_zero]
  · intro hne
    refine ⟨by simp [changePctOf, hne], ?_⟩
    show round2 (changePctOf _ _) = _
    simp [changePctOf, hne]

/-- Witness for C7: the only prior-day candle closes at 0, so the reference
price is 0 and the guard takes effect. -/
theorem claim7_zero_guard_witness :
    (dropnaClose [⟨0, 1, some 0⟩, ⟨1440, 1, some 5⟩] = [⟨0, 1, 0⟩, ⟨1440, 1, 5⟩]) ∧
    ((5 : ℚ) = (lastOf (⟨0, 1, 0⟩ : Candle) [⟨1440, 1, 5⟩]).close) ∧
    ((0 : ℚ) = prevCloseOf [⟨0, 1, 0⟩, ⟨1440, 1, 5⟩] ⟨0, 1, 0⟩
      (lastOf ⟨0, 1, 0⟩ [⟨1440, 1, 5⟩])) ∧
    (∃ dp, (processSymbol [] "ZED" (some [⟨0, 1, some 0⟩, ⟨1440, 1, some 5⟩]) none).1 = some dp ∧
      ((0 : ℚ) = 0 → changePctOf ((5 : ℚ) - 0) 0 = 0 ∧ dp.change_percent = 0) ∧
      ((0 : ℚ) ≠ 0 → changePctOf ((5 : ℚ) - 0) 0 = ((5 : ℚ) - 0) / 0 * 100 ∧
        dp.change_percent = round2 (((5 : ℚ) - 0) / 0 * 100))) :=
  ⟨by with_unfolding_all decide, by with_unfolding_all decide, by with_unfolding_all decide,
    claim7_zero_guard [] "ZED" [⟨0, 1, some 0⟩, ⟨1440, 1, some 5⟩] ⟨0, 1, 0⟩ [⟨1440, 1, 5⟩]
      5 0 (by with_unfolding_all decide) (by with_unfolding_all decide)
      (by with_unfolding_all decide)⟩

/-- C9: the snapshot fields are the 2-decimal roundings of values computed
from the unrounded current price and reference price; rounding happens only
when the record is built, never inside the computation. -/
theorem claim9_rounding_at_output_only (metadata : List (String × StockRow)) (symbol : String)
    (rs : List RawCandle) (firstC : Candle) (rest : List Candle) (fault : Option Fault)
    (cp pc : ℚ)
    (hdf : dropnaClose rs = firstC :: rest)
    (hfault : fault ≠ some Fault.snapPhase)
    (hcp : cp = (lastOf firstC rest).close)
    (hpc : pc = prevCloseOf (firstC :: rest) firstC (lastOf firstC rest)) :
    ∃ dp, (processSymbol metadata symbol (some rs) fault).1 = some dp ∧
      dp.price = round2 cp ∧
      dp.change_value = round2 (cp - pc) ∧
      dp.change_percent = round2 (changePctOf (cp - pc) pc) ∧
      dp.previous_close = round2 pc ∧
      dp.recorded_at = (lastOf firstC rest).ts := by
  subst hcp
  subst hpc
  exact ⟨_, processSymbol_fst_eq metadata symbol rs firstC rest fault hdf hfault,
    rfl, rfl, rfl, rfl, rfl⟩

/-- Witness for C9 at a concrete two-candle input. -/
theorem claim9_rounding_at_output_only_witness :
    (dropnaClose [⟨0, 1, some 3⟩, ⟨1440, 1, some 7⟩] = [⟨0, 1, 3⟩, ⟨1440, 1, 7⟩]) ∧
    ((none : Option Fault) ≠ some Fault.snapPhase) ∧
    ((7 : ℚ) = (lastOf (⟨0, 1, 3⟩ : Candle) [⟨1440, 1, 7⟩]).close) ∧
    ((3 : ℚ) = prevCloseOf [⟨0, 1, 3⟩, ⟨1440, 1, 7⟩] ⟨0, 1, 3⟩
      (lastOf ⟨0, 1, 3⟩ [⟨1440, 1, 7⟩])) ∧
    (∃ dp, (processSymbol [] "QQQ" (some [⟨0, 1, some 3⟩, ⟨1440, 1, some 7⟩]) none).1 = some dp ∧
      dp.price = round2 7 ∧
      dp.change_value = round2 ((7 : ℚ) - 3) ∧
      dp.change_percent = round2 (changePctOf ((7 : ℚ) - 3) 3) ∧
      dp.previous_close = round2 3 ∧
      dp.recorded_at = (lastOf (⟨0, 1, 3⟩ : Candle) [⟨1440, 1, 7⟩]).ts) :=
  ⟨by with_unfolding_all decide, by decide, by with_unfolding_all decide,
    by with_unfolding_all decide,
    claim9_rounding_at_output_only [] "QQQ" [⟨0, 1, some 3⟩, ⟨1440, 1, some 7⟩]
      ⟨0, 1, 3⟩ [⟨1440, 1, 7⟩] none 7 3 (by with_unfolding_all decide) (by decide)
      (by with_unfolding_all decide) (by with_unfolding_all decide)⟩

/-- C10: the snapshot market tag is CRYPTO exactly when the catalog tag is
US (or the symbol is absent from the catalog, which defaults to US) and the
symbol contains -USD, BTC or ETH as a substring; otherwise the catalog tag
passes through unchanged. -/
theorem claim10_crypto_detection (metadata : List (String × StockRow)) (symbol : String)
    (rs : List RawCandle) (firstC : Candle) (rest : List Candle) (fault : Option Fault)
    (hdf : dropnaClose rs = firstC :: rest)
    (hfault : fault ≠ some Fault.snapPhase) :
    ∃ dp, (processSymbol metadata symbol (some rs) fault).1 = some dp ∧
      dp.market = marketTypeOf symbol (catalogMarket metadata symbol) ∧
      (catalogMarket metadata symbol = "US" →
        (strIn "-USD" symbol || strIn "BTC" symbol || strIn "ETH" symbol) = true →
        dp.market = "CRYPTO") ∧
      ((catalogMarket metadata symbol = "US" →
        (strIn "-USD" symbol || strIn "BTC" symbol || strIn "ETH" symbol) = false) →
        dp.market = catalogMarket metadata symbol) ∧
      (∀ pat : String, strIn pat symbol = true ↔
        ∃ pre suf, symbol.toList = pre ++ pat.toList ++ suf) := by
  refine ⟨_, processSymbol_fst_eq metadata symbol rs firstC rest fault hdf hfault,
    rfl, ?_, ?_, fun pat => strIn_iff pat symbol⟩
  · intro hus hsub
    show marketTypeOf symbol (catalogMarket metadata symbol) = "CRYPTO"
    simp [marketTypeOf, hus, hsub]
  · intro hcond
    show marketTypeOf symbol (catalogMarket metadata symbol) = catalogMarket metadata symbol
    by_cases hus : catalogMarket metadata symbol = "US"
    · have hfalse := hcond hus
      simp [marketTypeOf, hus, hfalse]
    · simp [marketTypeOf, hus]

/-- Witness for C10: BTC-USD with no catalog row defaults to US and is
re-tagged CRYPTO. -/
theorem claim10_crypto_detection_witness :
    (dropnaClose [⟨0, 1, some 2⟩] = [⟨0, 1, 2⟩]) ∧
    ((none : Option Fault) ≠ some Fault.snapPhase) ∧
    (∃ dp, (processSymbol [] "BTC-USD" (some [⟨0, 1, some 2⟩]) none).1 = some dp ∧
      dp.market = marketTypeOf "BTC-USD" (catalogMarket [] "BTC-USD") ∧
      (catalogMarket [] "BTC-USD" = "US" →
        (strIn "-USD" "BTC-USD" || strIn "BTC" "BTC-USD" || strIn "ETH" "BTC-USD") = true →
        dp.market = "CRYPTO") ∧
      ((catalogMarket [] "BTC-USD" = "US" →
        (strIn "-USD" "BTC-USD" || strIn "BTC" "BTC-USD" || strIn "ETH" "BTC-USD") = false) →
        dp.market = catalogMarket [] "BTC-USD") ∧
      (∀ pat : String, strIn pat "BTC-USD" = true ↔
        ∃ pre suf, "BTC-USD".toList = pre ++ pat.toList ++ suf)) :=
  ⟨by with_unfolding_all decide, by decide,
    claim10_crypto_detection [] "BTC-USD" [⟨0, 1, some 2⟩] ⟨0, 1, 2⟩ [] none
      (by with_unfolding_all decide) (by decide)⟩

/-- C1 counterexample: a symbol with two non-null-close candles at minutes
0 and 10 of the session day produces the price list [1, null, 2]; the slot
at minute 5 is an interior null, so the claim that every slot holds a price
after fill is false: the code resamples with asfreq and performs no
forward- or back-fill. -/
theorem claim1_interior_gap_cex :
    (processSymbol [] "AAA" (some [⟨0, 1, some 1⟩, ⟨10, 1, some 2⟩]) none).2
      = some ⟨0, [some 1, none, some 2]⟩ ∧
    ((processSymbol [] "AAA" (some [⟨0, 1, some 1⟩, ⟨10, 1, some 2⟩]) none).2.map
        (fun e => e.p[1]?)) = some (some none) := by
  with_unfolding_all decide

/-- C1 amended: a slot of the stored price list holds a (rounded) price
exactly when some candle of the session day sits exactly on that grid
timestamp; slots with no candle on them stay null, interior ones included. -/
theorem claim1_slot_iff_candle_on_grid (df : List Candle) (lastC : Candle) (e : HistoryEntry)
    (he : historyOf df lastC = some e) :
    e.p = (asfreq5 (todaysOf df lastC)).map (fun q => q.2.map round2) ∧
    ∀ (i g : Nat) (v : Option ℚ), (asfreq5 (todaysOf df lastC))[i]? = some (g, v) →
      e.p[i]? = some (v.map round2) ∧
      ((v.map round2).isSome = true ↔ ∃ c ∈ todaysOf df lastC, c.ts = g) := by
  obtain ⟨h0, hh, hedef⟩ := historyOf_eq_some he
  subst hedef
  refine ⟨rfl, ?_⟩
  intro i g v hs
  obtain ⟨c0, hc0⟩ : ∃ c0, (todaysOf df lastC).head? = some c0 := by
    have hne : todaysOf df lastC ≠ [] := by
      intro hnil
      rw [hnil] at hh
      simp [asfreq5_nil] at hh
    cases hx : (todaysOf df lastC).head? with
    | none => exact absurd (List.head?_eq_none_iff.mp hx) hne
    | some c => exact ⟨c, rfl⟩
  have hge := asfreq5_getElem hc0 hs
  constructor
  · show ((asfreq5 (todaysOf df lastC)).map (fun q => q.2.map round2))[i]? = _
    rw [List.getElem?_map, hs]
    rfl
  · rw [hge.2, Option.isSome_map']
    exact lookupClose_isSome_iff _ g

/-- Witness for the amended C1 at the gap input of the counterexample. -/
theorem claim1_slot_iff_candle_on_grid_witness :
    (historyOf [⟨0, 1, 1⟩, ⟨10, 1, 2⟩] ⟨10, 1, 2⟩ = some ⟨0, [some 1, none, some 2]⟩) ∧
    ((⟨0, [some 1, none, some 2]⟩ : HistoryEntry).p
      = (asfreq5 (todaysOf [⟨0, 1, 1⟩, ⟨10, 1, 2⟩] ⟨10, 1, 2⟩)).map (fun q => q.2.map round2) ∧
    ∀ (i g : Nat) (v : Option ℚ),
      (asfreq5 (todaysOf [⟨0, 1, 1⟩, ⟨10, 1, 2⟩] ⟨10, 1, 2⟩))[i]? = some (g, v) →
      (⟨0, [some 1, none, some 2]⟩ : HistoryEntry).p[i]? = some (v.map round2) ∧
      ((v.map round2).isSome = true ↔
        ∃ c ∈ todaysOf [⟨0, 1, 1⟩, ⟨10, 1, 2⟩] ⟨10, 1, 2⟩, c.ts = g)) :=
  ⟨by with_unfolding_all decide,
    claim1_slot_iff_candle_on_grid [⟨0, 1, 1⟩, ⟨10, 1, 2⟩] ⟨10, 1, 2⟩
      ⟨0, [some 1, none, some 2]⟩ (by with_unfolding_all decide)⟩

/-- C2 counterexample: a session-day candle at minute 600 (10:00) yields a
series starting at 600, not at the 09:30 session open of the session day;
the code anchors the grid at the first available candle, it has no session
window at all. The spacing and monotonicity parts of the claim do hold (see
the amended theorem). -/
theorem claim2_first_ts_not_session_open_cex :
    (processSymbol [] "AAA" (some [⟨600, 5, some 7⟩]) none).2 = some ⟨600, [some 7]⟩ ∧
    (600 : Nat) ≠ dayOf 600 * 1440 + sessionOpenMinutes := by
  with_unfolding_all decide

/-- C2 amended: the series timestamps are strictly increasing and equally
spaced by the 5-minute step, and the first timestamp is the 5-minute grid
floor of the first candle of the session day (the day of the last raw
timestamp) rather than the session open. -/
theorem claim2_grid_spacing_and_start (df : List Candle) (lastC : Candle) (e : HistoryEntry)
    (hsort : df.Pairwise (fun a b => a.ts < b.ts))
    (he : historyOf df lastC = some e) :
    ∃ c0, (todaysOf df lastC).head? = some c0 ∧
      e.s = gridFloor c0.ts ∧
      (∀ c ∈ todaysOf df lastC, c0.ts ≤ c.ts) ∧
      (∀ (i g : Nat) (v : Option ℚ),
        (asfreq5 (todaysOf df lastC))[i]? = some (g, v) → g = e.s + 5 * i) ∧
      (∀ (i j gi gj : Nat) (vi vj : Option ℚ), i < j →
        (asfreq5 (todaysOf df lastC))[i]? = some (gi, vi) →
        (asfreq5 (todaysOf df lastC))[j]? = some (gj, vj) → gi + 5 ≤ gj) := by
  obtain ⟨h0, hh, hedef⟩ := historyOf_eq_some he
  subst hedef
  have hne : todaysOf df lastC ≠ [] := by
    intro hnil
    rw [hnil] at hh
    simp [asfreq5_nil] at hh
  obtain ⟨c0, hc0⟩ : ∃ c0, (todaysOf df lastC).head? = some c0 := by
    cases hx : (todaysOf df lastC).head? with
    | none => exact absurd (List.head?_eq_none_iff.mp hx) hne
    | some c => exact ⟨c, rfl⟩
  have hhead := asfreq5_head hc0
  have hh0 : h0 = (gridFloor c0.ts, lookupClose (todaysOf df lastC) (gridFloor c0.ts)) :=
    Option.some.inj (hh.symm.trans hhead)
  subst hh0
  have htsort : (todaysOf df lastC).Pairwise (fun x y => x.ts < y.ts) := hsort.filter _
  refine ⟨c0, hc0, rfl, pairwise_head?_min _ htsort c0 hc0, ?_, ?_⟩
  · intro i g v hs
    exact (asfreq5_getElem hc0 hs).1
  · intro i j gi gj vi vj hij hsi hsj
    have h1 := (asfreq5_getElem hc0 hsi).1
    have h2 := (asfreq5_getElem hc0 hsj).1
    omega

/-- Witness for the amended C2 at a one-candle session. -/
theorem claim2_grid_spacing_and_start_witness :
    (([(⟨600, 5, 7⟩ : Candle)]).Pairwise (fun a b => a.ts < b.ts)) ∧
    (historyOf [⟨600, 5, 7⟩] ⟨600, 5, 7⟩ = some ⟨600, [some 7]⟩) ∧
    (∃ c0, (todaysOf [(⟨600, 5, 7⟩ : Candle)] ⟨600, 5, 7⟩).head? = some c0 ∧
      (⟨600, [some 7]⟩ : HistoryEntry).s = gridFloor c0.ts ∧
      (∀ c ∈ todaysOf [(⟨600, 5, 7⟩ : Candle)] ⟨600, 5, 7⟩, c0.ts ≤ c.ts) ∧
      (∀ (i g : Nat) (v : Option ℚ),
        (asfreq5 (todaysOf [(⟨600, 5, 7⟩ : Candle)] ⟨600, 5, 7⟩))[i]? = some (g, v) →
          g = (⟨600, [some 7]⟩ : HistoryEntry).s + 5 * i) ∧
      (∀ (i j gi gj : Nat) (vi vj : Option ℚ), i < j →
        (asfreq5 (todaysOf [(⟨600, 5, 7⟩ : Candle)] ⟨600, 5, 7⟩))[i]? = some (gi, vi) →
        (asfreq5 (todaysOf [(⟨600, 5, 7⟩ : Candle)] ⟨600, 5, 7⟩))[j]? = some (gj, vj) →
          gi + 5 ≤ gj)) :=
  ⟨by decide, by with_unfolding_all decide,
    claim2_grid_spacing_and_start [⟨600, 5, 7⟩] ⟨600, 5, 7⟩ ⟨600, [some 7]⟩
      (by decide) (by with_unfolding_all decide)⟩

/-- Raw-candle table of the C5 example run: one good candle for AAA. -/
def sampleRaw5 : String → Option (List RawCandle) :=
  fun t => if t = "AAA" then some [⟨0, 1, some 2⟩] else none

/-- Fault oracle of the C5 example run: the history section of AAA raises. -/
def sampleFaults5 : String → Option Fault :=
  fun t => if t = "AAA" then some Fault.histPhase else none

/-- Fault-free oracle compared against in the C5 witness. -/
def sampleFaults5b : String → Option Fault := fun _ => none

/-- C5 counterexample: the fault oracle makes the history section of AAA
raise after the snapshot appends already ran (lines 130-131 of scraper.py
precede the history block of lines 137-157, all inside the same caught try
body). The run still records the AAA snapshot while the history cache stays
empty, so the claim that a failing symbol is excluded from both outputs is
false. -/
theorem claim5_snapshot_kept_on_history_fault_cex :
    ((processChunk [] sampleRaw5 sampleFaults5 ["AAA"] initState).latest.map
        Snapshot.symbol = ["AAA"]) ∧
    (processChunk [] sampleRaw5 sampleFaults5 ["AAA"] initState).history = [] := by
  with_unfolding_all decide

/-- C5 amended: an exception raised before the snapshot appends excludes the
symbol from both outputs; an exception raised in the history section drops
only the history entry while the already-appended snapshot stays; in both
cases every other symbol of the chunk is processed exactly as it would be
under any other fault fate of that symbol. -/
theorem claim5_row_failure_isolation (metadata : List (String × StockRow))
    (raw : String → Option (List RawCandle)) (faults faults2 : String → Option Fault)
    (s : String) (hag : ∀ t, t ≠ s → faults2 t = faults t) :
    (faults s = some Fault.snapPhase →
      processSymbol metadata s (raw s) (faults s) = (none, none)) ∧
    (faults s = some Fault.histPhase →
      (processSymbol metadata s (raw s) (faults s)).2 = none ∧
      (processSymbol metadata s (raw s) (faults s)).1
        = (processSymbol metadata s (raw s) none).1) ∧
    (∀ (batch : List String) (st : RunState) (t : String), t ≠ s →
      latestFor (processChunk metadata raw faults batch st) t
        = latestFor (processChunk metadata raw faults2 batch st) t ∧
      dictGet (processChunk metadata raw faults batch st).history t
        = dictGet (processChunk metadata raw faults2 batch st).history t) := by
  refine ⟨?_, ?_, ?_⟩
  · intro h
    rw [h]
    exact processSymbol_snapPhase metadata s (raw s)
  · intro h
    rw [h]
    exact ⟨processSymbol_histPhase_snd metadata s (raw s),
      processSymbol_histPhase_fst metadata s (raw s)⟩
  · intro batch st t ht
    exact processChunk_agree hag batch st st (fun u _ => rfl) (fun u _ => rfl) t ht

/-- Witness for the amended C5 at the counterexample run compared with a
fault-free run. -/
theorem claim5_row_failure_isolation_witness :
    (∀ t : String, t ≠ "AAA" → sampleFaults5b t = sampleFaults5 t) ∧
    ((sampleFaults5 "AAA" = some Fault.snapPhase →
      processSymbol [] "AAA" (sampleRaw5 "AAA") (sampleFaults5 "AAA") = (none, none)) ∧
    (sampleFaults5 "AAA" = some Fault.histPhase →
      (processSymbol [] "AAA" (sampleRaw5 "AAA") (sampleFaults5 "AAA")).2 = none ∧
      (processSymbol [] "AAA" (sampleRaw5 "AAA") (sampleFaults5 "AAA")).1
        = (processSymbol [] "AAA" (sampleRaw5 "AAA") none).1) ∧
    (∀ (batch : List String) (st : RunState) (t : String), t ≠ "AAA" →
      latestFor (processChunk [] sampleRaw5 sampleFaults5 batch st) t
        = latestFor (processChunk [] sampleRaw5 sampleFaults5b batch st) t ∧
      dictGet (processChunk [] sampleRaw5 sampleFaults5 batch st).history t
        = dictGet (processChunk [] sampleRaw5 sampleFaults5b batch st).history t)) :=
  ⟨fun t ht => by simp [sampleFaults5b, sampleFaults5, ht],
    claim5_row_failure_isolation [] sampleRaw5 sampleFaults5 sampleFaults5b "AAA"
      (fun t ht => by simp [sampleFaults5b, sampleFaults5, ht])⟩

/-- C8: a symbol whose raw candle set is empty, or holds only null closes,
is skipped: it contributes nothing to either accumulator, whatever the
fault oracle says (the skip happens before any fault point), and the chunk
fold is identical to the fold over the batch without that symbol. -/
theorem claim8_empty_candles_skipped (metadata : List (String × StockRow))
    (raw : String → Option (List RawCandle)) (faults : String → Option Fault)
    (batch : List String) (st : RunState) (s : String) (rs : List RawCandle)
    (h1 : raw s = some rs) (h2 : dropnaClose rs = []) :
    processSymbol metadata s (raw s) (faults s) = (none, none) ∧
    processChunk metadata raw faults batch st
      = processChunk metadata raw faults (batch.filter (fun t => !(t == s))) st ∧
    latestFor (processChunk metadata raw faults batch st) s = latestFor st s ∧
    dictGet (processChunk metadata raw faults batch st).history s = dictGet st.history s := by
  have hskip : processSymbol metadata s (raw s) (faults s) = (none, none) :=
    processSymbol_skip (faults s) (Or.inr ⟨rs, h1, h2⟩)
  have hmem : s ∉ batch.filter (fun t => !(t == s)) := by
    intro hmem
    have := List.mem_filter.mp hmem
    simp at this
  have hfe := processChunk_filter_of_skip hskip batch st
  have hst := @processChunk_stable metadata raw faults (batch.filter (fun t => !(t == s))) st s hmem
  exact ⟨hskip, hfe, by rw [hfe]; exact hst.1, by rw [hfe]; exact hst.2⟩

/-- Raw-candle table of the C8 example run: DEAD has a single candle with a
null close, BBB a good one. -/
def sampleRaw8 : String → Option (List RawCandle) :=
  fun t => if t = "DEAD" then some [⟨0, 1, none⟩]
    else if t = "BBB" then some [⟨0, 1, some 3⟩] else none

/-- Witness for C8: DEAD is skipped and the chunk equals the BBB-only
chunk. -/
theorem claim8_empty_candles_skipped_witness :
    (sampleRaw8 "DEAD" = some [⟨0, 1, none⟩]) ∧
    (dropnaClose [⟨0, 1, none⟩] = []) ∧
    (processSymbol [] "DEAD" (sampleRaw8 "DEAD") ((fun _ => none) "DEAD") = (none, none) ∧
    processChunk [] sampleRaw8 (fun _ => none) ["DEAD", "BBB"] initState
      = processChunk [] sampleRaw8 (fun _ => none)
          ((["DEAD", "BBB"]).filter (fun t => !(t == "DEAD"))) initState ∧
    latestFor (processChunk [] sampleRaw8 (fun _ => none) ["DEAD", "BBB"] initState) "DEAD"
      = latestFor initState "DEAD" ∧
    dictGet (processChunk [] sampleRaw8 (fun _ => none) ["DEAD", "BBB"] initState).history "DEAD"
      = dictGet initState.history "DEAD") :=
  ⟨by with_unfolding_all decide, by with_unfolding_all decide,
    claim8_empty_candles_skipped [] sampleRaw8 (fun _ => none) ["DEAD", "BBB"] initState
      "DEAD" [⟨0, 1, none⟩] (by with_unfolding_all decide) (by with_unfolding_all decide)⟩

/-- C6: the shard name is history_ plus the uppercased first character when
that character is alphabetic and the fixed bucket history_0-9 otherwise; it
depends only on the first character; and with the distinct symbols of the
history cache, the buckets partition the input: a pair lies in the shard
map exactly in the bucket named by its shard name, and in no other. -/
theorem claim6_sharding_partition :
    (∀ (s : String) (c : Char) (cs : List Char), s.toList = c :: cs →
      shardName s = (if c.toUpper.isAlpha then "history_" ++ String.mk [c.toUpper]
        else "history_0-9")) ∧
    (∀ s t : String, s.toList.head? = t.toList.head? → shardName s = shardName t) ∧
    (∀ (hist : List (String × HistoryEntry)), (hist.map Prod.fst).Nodup →
      ∀ (sym : String) (e : HistoryEntry),
        (((sym, e) ∈ hist) ↔
          ∃ bucket, dictGet (shardAll hist) (shardName sym) = some bucket ∧
            (sym, e) ∈ bucket) ∧
        (∀ (b : String) (bucket : List (String × HistoryEntry)),
          dictGet (shardAll hist) b = some bucket → (sym, e) ∈ bucket →
            b = shardName sym)) := by
  refine ⟨?_, ?_, ?_⟩
  · intro s c cs hs
    simp only [shardName, hs]
  · intro s t hst
    cases hsl : s.toList with
    | nil =>
        cases htl : t.toList with
        | nil => simp only [shardName, hsl, htl]
        | cons d ds => rw [hsl, htl] at hst; simp at hst
    | cons c cs =>
        cases htl : t.toList with
        | nil => rw [hsl, htl] at hst; simp at hst
        | cons d ds =>
            rw [hsl, htl] at hst
            have hcd : c = d := by simpa using hst
            simp only [shardName, hsl, htl, hcd]
  · intro hist hnd sym e
    constructor
    · constructor
      · intro hmem
        have hget := shardAll_get hist (shardName sym) hnd
        have hfmem : (sym, e) ∈ hist.filter (fun p => shardName p.1 == shardName sym) :=
          List.mem_filter.mpr ⟨hmem, by simp⟩
        have hemp : (hist.filter (fun p => shardName p.1 == shardName sym)).isEmpty = false := by
          cases hf : hist.filter (fun p => shardName p.1 == shardName sym) with
          | nil => rw [hf] at hfmem; simp at hfmem
          | cons q qs => rfl
        refine ⟨hist.filter (fun p => shardName p.1 == shardName sym), ?_, hfmem⟩
        rw [hget, hemp]
        simp
      · rintro ⟨bucket, hb, hmemb⟩
        have hget := shardAll_get hist (shardName sym) hnd
        rw [hget] at hb
        by_cases hemp : (hist.filter (fun p => shardName p.1 == shardName sym)).isEmpty = true
        · rw [hemp] at hb
          simp at hb
        · rw [Bool.not_eq_true] at hemp
          rw [hemp] at hb
          simp at hb
          rw [← hb] at hmemb
          exact (List.mem_filter.mp hmemb).1
    · intro b bucket hb hmemb
      have hget := shardAll_get hist b hnd
      rw [hget] at hb
      by_cases hemp : (hist.filter (fun p => shardName p.1 == b)).isEmpty = true
      · rw [hemp] at hb
        simp at hb
      · rw [Bool.not_eq_true] at hemp
        rw [hemp] at hb
        simp at hb
        rw [← hb] at hmemb
        have := (List.mem_filter.mp hmemb).2
        exact (beq_iff_eq.mp this).symm

/-- Witness for C6 at a two-symbol history cache with an alphabetic and a
numeric leading character. -/
theorem claim6_sharding_partition_witness :
    ("AAPL".toList = 'A' :: "APL".toList) ∧
    (([("AAPL", (⟨0, []⟩ : HistoryEntry)), ("0X", ⟨5, []⟩)].map Prod.fst).Nodup) ∧
    (shardName "AAPL" = "history_A") ∧
    (shardName "0X" = "history_0-9") ∧
    ((("AAPL", (⟨0, []⟩ : HistoryEntry)) ∈
        [("AAPL", (⟨0, []⟩ : HistoryEntry)), ("0X", ⟨5, []⟩)]) ↔
      ∃ bucket, dictGet (shardAll [("AAPL", (⟨0, []⟩ : HistoryEntry)), ("0X", ⟨5, []⟩)])
          (shardName "AAPL") = some bucket ∧ ("AAPL", (⟨0, []⟩ : HistoryEntry)) ∈ bucket) :=
  ⟨by decide, by decide, by decide, by decide,
    ((claim6_sharding_partition.2.2 [("AAPL", (⟨0, []⟩ : HistoryEntry)), ("0X", ⟨5, []⟩)]
      (by decide) "AAPL" ⟨0, []⟩).1)⟩

/-- Sample fate of the C4 witness: the second chunk is interrupted before
any of its symbols was processed. -/
def sampleFate4 : Nat → ChunkFate :=
  fun j => if j = 1 then ChunkFate.fatalAfter 0 else ChunkFate.ok

/-- C4: whatever the fates of the chunks, the finally block projects the
accumulated state: when no chunk fate is fatal the persisted artifacts are
the accumulation of every chunk (ok chunks whole, caught chunks their
processed prefix), and when the first fatal fate strikes chunk k after n of
its symbols, the persisted artifacts are the accumulation of the k
preceding chunks plus that processed prefix. Nothing computed before the
exit is lost. -/
theorem claim4_persist_always_runs (metadata : List (String × StockRow))
    (raw : String → Option (List RawCandle)) (faults : String → Option Fault)
    (fate : Nat → ChunkFate) (batches : List (List String)) :
    ((∀ j, j < batches.length → fatalOf (fate j) = false) →
      fetchAndStore metadata raw faults fate batches
        = persist (accumChunks metadata raw faults fate batches 0 initState)) ∧
    (∀ k n, k < batches.length → (∀ j, j < k → fatalOf (fate j) = false) →
      fate k = ChunkFate.fatalAfter n →
      fetchAndStore metadata raw faults fate batches
        = persist (processChunk metadata raw faults ((batches.getD k []).take n)
            (accumChunks metadata raw faults fate (batches.take k) 0 initState))) := by
  constructor
  · intro hnf
    rw [fetchAndStore, runLoop_eq_accum metadata raw faults fate batches 0 initState
      (by intro j hj; simpa using hnf j hj)]
  · intro k n hk hnf hfatal
    rw [fetchAndStore, runLoop_eq_crash metadata raw faults fate batches 0 initState k n hk
      (by intro j hj; simpa using hnf j hj) (by simpa using hfatal)]

/-- Witness for C4: two chunks, interrupt at the start of the second; the
persisted output is the projection of the first chunk only. -/
theorem claim4_persist_always_runs_witness :
    (1 < ([["A"], ["B"]] : List (List String)).length) ∧
    (∀ j, j < 1 → fatalOf (sampleFate4 j) = false) ∧
    (sampleFate4 1 = ChunkFate.fatalAfter 0) ∧
    (fetchAndStore [] (fun _ => none) (fun _ => none) sampleFate4 [["A"], ["B"]]
      = persist (processChunk [] (fun _ => none) (fun _ => none)
          ((([["A"], ["B"]] : List (List String)).getD 1 []).take 0)
          (accumChunks [] (fun _ => none) (fun _ => none) sampleFate4
            (([["A"], ["B"]] : List (List String)).take 1) 0 initState))) :=
  ⟨by decide, by decide, by decide,
    (claim4_persist_always_runs [] (fun _ => none) (fun _ => none) sampleFate4
      [["A"], ["B"]]).2 1 0 (by decide) (by decide) (by decide)⟩

end Scraper
